import Mathlib

/-!
# Verification of the annotation lifecycle engine

A shallow embedding of the annotation engine of this repository:
quote extraction from AI responses (`utils/annotationParser.ts`, visible in
`types/global.d.ts`), position tracking through document edits
(`rawAnnotationsField` in `MarkdownEditor.tsx`), apply/undo
(`applyAnnotation`, `annotationHistory`), the auto-dismiss debounce
(`schedulePendingDismiss`), the user dismiss path (`FeedbackPanel` +
store), and the tracked/incoming merge rule.

Documents and free-form text are embedded as `List Char`; character
offsets are `Nat` (JS string indices are non-negative; all characters
involved live in the BMP, where UTF-16 code-unit indices coincide with
scalar counts).
-/

namespace Hohoff

/-- Embeds `AnnotationType` from `types/editor.ts`:
`'passive_voice' | 'consistency' | 'style' | 'critique' | 'custom'`. -/
inductive AnnType where
  | passive_voice
  | consistency
  | style
  | critique
  | custom
deriving DecidableEq, Repr

/-- Embeds the `TextAnnotation` record from `types/editor.ts`.  The TS
fields `from` and `to` are Lean keywords/tokens, so they are rendered
`fromPos` and `toPos`.  The optional booleans `applied`/`dismissed`
default to `false` (absent). -/
structure Ann where
  id : List Char
  type : AnnType
  fromPos : Nat
  toPos : Nat
  matchedText : List Char
  message : List Char
  suggestion : Option (List Char)
  applied : Bool := false
  dismissed : Bool := false
deriving DecidableEq, Repr

/-- A single document edit: the half-open range `[f, t)` of the old
document is replaced by `insert`.  This embeds one changed range of a
CodeMirror transaction (`tr.changes`). -/
structure Edit where
  f : Nat
  t : Nat
  insert : List Char
deriving DecidableEq, Repr

/-- Well-formedness of an edit against a document of length `len`. -/
def Edit.wf (e : Edit) (len : Nat) : Prop := e.f ≤ e.t ∧ e.t ≤ len

instance (e : Edit) (len : Nat) : Decidable (e.wf len) := by
  unfold Edit.wf; infer_instance

/-- Apply an edit to a document. -/
def applyEdit (e : Edit) (doc : List Char) : List Char :=
  doc.take e.f ++ e.insert ++ doc.drop e.t

/-- Length of the document after an edit. -/
def Edit.newLen (e : Edit) (len : Nat) : Nat :=
  len - (e.t - e.f) + e.insert.length

/-- Modelled from the spec: the external editing widget's position remap
(spec §6 "a position-remap function"; the widget is CodeMirror, an
out-of-scope collaborator whose code is not part of this repository).
This is `ChangeDesc.mapPos` of `@codemirror/state` for a single replaced
range, following its documented association semantics: with a negative
`assoc` a position is kept close to the character before it and is moved
*before* text inserted exactly at that point, with a positive `assoc` it
is moved *after* such an insertion; a position strictly inside the
replaced range moves to the start of the replacement (negative `assoc`)
or to the end of the inserted text (positive `assoc`); the start of a
non-empty replaced range maps to itself and its end maps to the end of
the inserted text. -/
def mapPos (e : Edit) (pos : Nat) (assoc : Int) : Nat :=
  if pos < e.f then pos
  else if pos < e.t then
    (if pos = e.f then e.f else if assoc < 0 then e.f else e.f + e.insert.length)
  else if pos = e.t then
    (if e.f = e.t then (if assoc < 0 then e.f else e.f + e.insert.length)
     else e.f + e.insert.length)
  else pos - (e.t - e.f) + e.insert.length

/-- Embeds the `tr.docChanged` branch of the `rawAnnotationsField` update
function (`MarkdownEditor.tsx`): every tracked annotation's `from` is
mapped with association `-1` and its `to` with association `1`. -/
def remapAnns (e : Edit) (anns : List Ann) : List Ann :=
  anns.map fun a => { a with fromPos := mapPos e a.fromPos (-1), toPos := mapPos e a.toPos 1 }

end Hohoff

/-! ## Position tracking: mapPos cell lemmas -/

namespace Hohoff

lemma mapPos_lt_f (e : Edit) (pos : Nat) (assoc : Int) (hp : pos < e.f) :
    mapPos e pos assoc = pos := by
  unfold mapPos; split_ifs <;> omega

lemma mapPos_f_neg (e : Edit) (h : e.f ≤ e.t) : mapPos e e.f (-1) = e.f := by
  unfold mapPos; split_ifs <;> omega

lemma mapPos_t_pos (e : Edit) (h : e.f ≤ e.t) :
    mapPos e e.t 1 = e.f + e.insert.length := by
  unfold mapPos; split_ifs <;> omega

lemma mapPos_gt_t (e : Edit) (pos : Nat) (assoc : Int) (h : e.f ≤ e.t)
    (hp : e.t < pos) :
    mapPos e pos assoc = pos - (e.t - e.f) + e.insert.length := by
  unfold mapPos; split_ifs <;> omega

lemma mapPos_insert_pos (e : Edit) (hf : e.f = e.t) :
    mapPos e e.f 1 = e.f + e.insert.length := by
  unfold mapPos
  split_ifs <;> omega

/-- For a pure insertion, a position at or before the insertion point is
unchanged by a negatively associated remap. -/
lemma mapPos_insert_neg_le (e : Edit) (pos : Nat) (hf : e.f = e.t)
    (hp : pos ≤ e.f) : mapPos e pos (-1) = pos := by
  unfold mapPos; split_ifs <;> omega

/-- For a pure insertion, a position at or after the insertion point is
shifted by the insertion length by a positively associated remap. -/
lemma mapPos_insert_pos_ge (e : Edit) (pos : Nat) (hf : e.f = e.t)
    (hp : e.f ≤ pos) : mapPos e pos 1 = pos + e.insert.length := by
  unfold mapPos; split_ifs <;> omega

lemma mapPos_le (e : Edit) (len pos : Nat) (assoc : Int) (h : e.wf len)
    (hp : pos ≤ len) : mapPos e pos assoc ≤ e.newLen len := by
  obtain ⟨h1, h2⟩ := h
  unfold mapPos Edit.newLen
  split_ifs <;> omega

lemma mapPos_cross (e : Edit) (p q : Nat) (hpq : p ≤ q) :
    mapPos e p (-1) ≤ mapPos e q 1 := by
  unfold mapPos
  split_ifs <;> omega

/-! ## Sequences of edits -/

/-- An annotation's range is valid for a document of length `len`
(`0 <= from <= to <= documentLength`; the lower bound is implicit in
`Nat`). -/
def Ann.validFor (a : Ann) (len : Nat) : Prop :=
  a.fromPos ≤ a.toPos ∧ a.toPos ≤ len

/-- Sequential application of document edits, oldest first. -/
def applyEdits : List Edit → List Char → List Char
  | [], doc => doc
  | e :: es, doc => applyEdits es (applyEdit e doc)

/-- Sequential remapping of the tracked annotation list: one
`rawAnnotationsField` update per edit, in edit order. -/
def remapAll : List Edit → List Ann → List Ann
  | [], anns => anns
  | e :: es, anns => remapAll es (remapAnns e anns)

/-- Each edit of the sequence is well-formed for the document length at
the moment it is applied. -/
def wfEdits : List Edit → Nat → Prop
  | [], _ => True
  | e :: es, len => e.wf len ∧ wfEdits es (e.newLen len)

lemma length_applyEdit (e : Edit) (doc : List Char) (h : e.wf doc.length) :
    (applyEdit e doc).length = e.newLen doc.length := by
  obtain ⟨h1, h2⟩ := h
  simp [applyEdit, Edit.newLen]
  omega

lemma remapAnns_validFor (e : Edit) (len : Nat) (anns : List Ann)
    (hwf : e.wf len) (hv : ∀ a ∈ anns, a.validFor len) :
    ∀ a ∈ remapAnns e anns, a.validFor (e.newLen len) := by
  intro a ha
  obtain ⟨a0, ha0, rfl⟩ := List.mem_map.mp ha
  obtain ⟨hv1, hv2⟩ := hv a0 ha0
  exact ⟨mapPos_cross e a0.fromPos a0.toPos hv1,
    mapPos_le e len a0.toPos 1 hwf hv2⟩

end Hohoff

/-! ## Decidability helpers and a concrete sample annotation -/

namespace Hohoff

instance (a : Ann) (len : Nat) : Decidable (a.validFor len) := by
  unfold Ann.validFor; infer_instance

instance wfEditsDec : (es : List Edit) → (len : Nat) → Decidable (wfEdits es len)
  | [], _ => .isTrue trivial
  | e :: es, len => by
      unfold wfEdits
      have := wfEditsDec es (e.newLen len)
      infer_instance

/-- A concrete tracked annotation spanning `[2, 5)`, used in closed
counterexamples and witnesses. -/
def sampleAnn : Ann :=
  { id := ['q'], type := .style, fromPos := 2, toPos := 5,
    matchedText := ['c', 'a', 't'], message := ['m'], suggestion := none }

/-- C1: the claim states that the remap of `from` pushes the annotation
forward past text inserted exactly at `from`, and that the remap of `to`
does not extend the annotation past text inserted exactly at `to`.  Both
directions are false for `rawAnnotationsField`: inserting `xyz` exactly
at `from = 2` leaves `from` at `2` (not `5`), and inserting `xyz`
exactly at `to = 5` moves `to` to `8` (not `5`). -/
theorem C1_counterexample :
    (remapAnns { f := 2, t := 2, insert := ['x', 'y', 'z'] } [sampleAnn]).map
        (fun a => a.fromPos) = [2]
    ∧ ¬ ((remapAnns { f := 2, t := 2, insert := ['x', 'y', 'z'] } [sampleAnn]).map
        (fun a => a.fromPos) = [5])
    ∧ (remapAnns { f := 5, t := 5, insert := ['x', 'y', 'z'] } [sampleAnn]).map
        (fun a => a.toPos) = [8]
    ∧ ¬ ((remapAnns { f := 5, t := 5, insert := ['x', 'y', 'z'] } [sampleAnn]).map
        (fun a => a.toPos) = [5]) := by
  decide

/-- C1 (amended): for an insertion exactly at `from` or exactly at `to`,
`rawAnnotationsField` keeps `from` in place (the annotation is not
pushed forward; text inserted at `from` falls inside the range) and
moves `to` past the inserted text (the annotation is extended by the
insertion length). -/
theorem C1_boundary_insertion (a : Ann) (p : Nat) (s : List Char)
    (hft : a.fromPos ≤ a.toPos) (hp : p = a.fromPos ∨ p = a.toPos) :
    remapAnns { f := p, t := p, insert := s } [a]
      = [{ a with toPos := a.toPos + s.length }] := by
  have h1 : mapPos { f := p, t := p, insert := s } a.fromPos (-1) = a.fromPos := by
    refine mapPos_insert_neg_le _ _ rfl ?_
    show a.fromPos ≤ p
    rcases hp with rfl | rfl <;> omega
  have h2 : mapPos { f := p, t := p, insert := s } a.toPos 1 = a.toPos + s.length := by
    have h := mapPos_insert_pos_ge { f := p, t := p, insert := s } a.toPos rfl
      (by show p ≤ a.toPos; rcases hp with rfl | rfl <;> omega)
    simpa using h
  obtain ⟨i, ty, f0, t0, mt, ms, sg, ap, dm⟩ := a
  simp [remapAnns, h1, h2]

/-- Witness for `C1_boundary_insertion` at `sampleAnn`, inserting one
character exactly at `from = 2`. -/
theorem C1_witness :
    sampleAnn.fromPos ≤ sampleAnn.toPos ∧
    remapAnns { f := 2, t := 2, insert := ['x'] } [sampleAnn]
      = [{ sampleAnn with toPos := sampleAnn.toPos + (['x'] : List Char).length }] :=
  ⟨by decide, C1_boundary_insertion sampleAnn 2 ['x'] (by decide) (Or.inl (by decide))⟩

/-- C2: for every sequence of well-formed document edits, every tracked
annotation satisfies `0 <= from <= to <= documentLength` after each
edit's remap (stated for the full sequence; any prefix of a sequence is
again a sequence). -/
theorem C2_range_validity (es : List Edit) (doc : List Char) (anns : List Ann)
    (hwf : wfEdits es doc.length) (hv : ∀ a ∈ anns, a.validFor doc.length) :
    ∀ a ∈ remapAll es anns,
      0 ≤ a.fromPos ∧ a.fromPos ≤ a.toPos ∧ a.toPos ≤ (applyEdits es doc).length := by
  induction es generalizing doc anns with
  | nil =>
      intro a ha
      simp only [remapAll] at ha
      obtain ⟨hv1, hv2⟩ := hv a ha
      exact ⟨Nat.zero_le _, hv1, by simpa [applyEdits] using hv2⟩
  | cons e es ih =>
      obtain ⟨hwf1, hwfs⟩ := hwf
      intro a ha
      simp only [remapAll] at ha
      simp only [applyEdits]
      have hlen := length_applyEdit e doc hwf1
      refine ih (applyEdit e doc) (remapAnns e anns) ?_ ?_ a ha
      · rw [hlen]; exact hwfs
      · intro a' ha'
        have h := remapAnns_validFor e doc.length anns hwf1 hv a' ha'
        unfold Ann.validFor at h ⊢
        rw [hlen]
        exact h

/-- Witness for `C2_range_validity`: a two-edit sequence (a replacement
and a deletion) on a six-character document carrying `sampleAnn`. -/
theorem C2_witness :
    wfEdits [{ f := 1, t := 3, insert := ['z'] }, { f := 0, t := 2, insert := [] }]
        (('a' :: 'b' :: 'c' :: 'd' :: 'e' :: 'f' :: []) : List Char).length
    ∧ (∀ a ∈ [sampleAnn], a.validFor
        (('a' :: 'b' :: 'c' :: 'd' :: 'e' :: 'f' :: []) : List Char).length)
    ∧ ∀ a ∈ remapAll [{ f := 1, t := 3, insert := ['z'] }, { f := 0, t := 2, insert := [] }]
          [sampleAnn],
        0 ≤ a.fromPos ∧ a.fromPos ≤ a.toPos ∧
          a.toPos ≤ (applyEdits
            [{ f := 1, t := 3, insert := ['z'] }, { f := 0, t := 2, insert := [] }]
            (('a' :: 'b' :: 'c' :: 'd' :: 'e' :: 'f' :: []) : List Char)).length :=
  ⟨by decide, by decide,
    C2_range_validity _ _ _ (by decide) (by decide)⟩

end Hohoff

/-! ## C5: zero-width survival and round trip -/

namespace Hohoff

lemma take_length_of_le {α} (l : List α) (n : Nat) (h : n ≤ l.length) :
    (l.take n).length = n := by
  simp [List.length_take]
  omega

/-- C5: deleting exactly `[from, to)` collapses the annotation to a
zero-width range but keeps it in the tracked list; re-inserting the
identical deleted text at that exact position restores the original
non-zero-width range `[from, to)`, and the document itself round-trips,
so the restored range again covers the re-inserted text. -/
theorem C5_zero_width_round_trip (doc : List Char) (anns : List Ann) (a : Ann)
    (ha : a ∈ anns) (h1 : a.fromPos < a.toPos) (h2 : a.toPos ≤ doc.length) :
    ({ a with toPos := a.fromPos } ∈ remapAnns { f := a.fromPos, t := a.toPos, insert := [] } anns)
    ∧ (a ∈ remapAnns
        { f := a.fromPos, t := a.fromPos,
          insert := (doc.drop a.fromPos).take (a.toPos - a.fromPos) }
        (remapAnns { f := a.fromPos, t := a.toPos, insert := [] } anns))
    ∧ applyEdit
        { f := a.fromPos, t := a.fromPos,
          insert := (doc.drop a.fromPos).take (a.toPos - a.fromPos) }
        (applyEdit { f := a.fromPos, t := a.toPos, insert := [] } doc) = doc := by
  have hslen : ((doc.drop a.fromPos).take (a.toPos - a.fromPos)).length
      = a.toPos - a.fromPos := by
    refine take_length_of_le _ _ ?_
    simp [List.length_drop]
    omega
  have hd1 : mapPos { f := a.fromPos, t := a.toPos, insert := ([] : List Char) }
      a.fromPos (-1) = a.fromPos := by
    have h := mapPos_f_neg { f := a.fromPos, t := a.toPos, insert := ([] : List Char) }
      (by simpa using Nat.le_of_lt h1)
    simpa using h
  have hd2 : mapPos { f := a.fromPos, t := a.toPos, insert := ([] : List Char) }
      a.toPos 1 = a.fromPos := by
    have h := mapPos_t_pos { f := a.fromPos, t := a.toPos, insert := ([] : List Char) }
      (by simpa using Nat.le_of_lt h1)
    simpa using h
  have hi1 : mapPos
      { f := a.fromPos, t := a.fromPos,
        insert := (doc.drop a.fromPos).take (a.toPos - a.fromPos) }
      a.fromPos (-1) = a.fromPos := mapPos_insert_neg_le _ _ rfl (Nat.le_refl _)
  have hi2 : mapPos
      { f := a.fromPos, t := a.fromPos,
        insert := (doc.drop a.fromPos).take (a.toPos - a.fromPos) }
      a.fromPos 1 = a.toPos := by
    have h := mapPos_insert_pos_ge
      { f := a.fromPos, t := a.fromPos,
        insert := (doc.drop a.fromPos).take (a.toPos - a.fromPos) }
      a.fromPos rfl (Nat.le_refl _)
    rw [h]
    show a.fromPos + ((doc.drop a.fromPos).take (a.toPos - a.fromPos)).length = a.toPos
    rw [hslen]
    omega
  refine ⟨?_, ?_, ?_⟩
  · refine List.mem_map.mpr ⟨a, ha, ?_⟩
    obtain ⟨i, ty, f0, t0, mt, ms, sg, ap, dm⟩ := a
    simp_all
  · refine List.mem_map.mpr
      ⟨{ a with toPos := a.fromPos }, List.mem_map.mpr ⟨a, ha, ?_⟩, ?_⟩
    · obtain ⟨i, ty, f0, t0, mt, ms, sg, ap, dm⟩ := a
      simp_all
    · obtain ⟨i, ty, f0, t0, mt, ms, sg, ap, dm⟩ := a
      simp_all
  · have htk : (doc.take a.fromPos).length = a.fromPos :=
      take_length_of_le _ _ (by omega)
    show (doc.take a.fromPos ++ [] ++ doc.drop a.toPos).take a.fromPos
          ++ (doc.drop a.fromPos).take (a.toPos - a.fromPos)
          ++ (doc.take a.fromPos ++ [] ++ doc.drop a.toPos).drop a.fromPos = doc
    rw [List.append_nil]
    rw [List.take_left' htk, List.drop_left' htk]
    rw [List.append_assoc]
    rw [show doc.drop a.toPos = (doc.drop a.fromPos).drop (a.toPos - a.fromPos) by
      rw [List.drop_drop]; congr 1; omega]
    rw [List.take_append_drop]
    rw [show (doc.drop a.fromPos) = doc.drop a.fromPos from rfl]
    exact (List.take_append_drop a.fromPos doc)

/-- Witness for `C5_zero_width_round_trip` on a six-character document
with `sampleAnn` spanning `[2, 5)`. -/
theorem C5_witness :
    sampleAnn ∈ [sampleAnn] ∧ sampleAnn.fromPos < sampleAnn.toPos ∧
    sampleAnn.toPos ≤ (('a' :: 'b' :: 'c' :: 'd' :: 'e' :: 'f' :: []) : List Char).length ∧
    (({ sampleAnn with toPos := sampleAnn.fromPos } : Ann) ∈
      remapAnns { f := sampleAnn.fromPos, t := sampleAnn.toPos, insert := [] } [sampleAnn])
    ∧ (sampleAnn ∈ remapAnns
        { f := sampleAnn.fromPos, t := sampleAnn.fromPos,
          insert := ((('a' :: 'b' :: 'c' :: 'd' :: 'e' :: 'f' :: []) : List Char).drop
            sampleAnn.fromPos).take (sampleAnn.toPos - sampleAnn.fromPos) }
        (remapAnns { f := sampleAnn.fromPos, t := sampleAnn.toPos, insert := [] } [sampleAnn]))
    ∧ applyEdit
        { f := sampleAnn.fromPos, t := sampleAnn.fromPos,
          insert := ((('a' :: 'b' :: 'c' :: 'd' :: 'e' :: 'f' :: []) : List Char).drop
            sampleAnn.fromPos).take (sampleAnn.toPos - sampleAnn.fromPos) }
        (applyEdit { f := sampleAnn.fromPos, t := sampleAnn.toPos, insert := [] }
          (('a' :: 'b' :: 'c' :: 'd' :: 'e' :: 'f' :: []) : List Char))
      = (('a' :: 'b' :: 'c' :: 'd' :: 'e' :: 'f' :: []) : List Char) := by
  refine ⟨by decide, by decide, by decide, ?_⟩
  exact C5_zero_width_round_trip ('a' :: 'b' :: 'c' :: 'd' :: 'e' :: 'f' :: [])
    [sampleAnn] sampleAnn (by decide) (by decide) (by decide)

end Hohoff

/-! ## C3: apply suggestion as a single undoable operation -/

namespace Hohoff

/-- A CodeMirror-like editor state: the document, the
`rawAnnotationsField` contents, and the undo history.  One history entry
is what one Apply transaction records: CodeMirror's history stores the
inverse text change, and `annotationHistory` (`invertedEffects`) stores
the pre-transaction annotation list as the inverted
`setAnnotationsEffect`, because the transaction both changed the
document and carried a `setAnnotationsEffect`. -/
structure EditorState where
  doc : List Char
  anns : List Ann
  history : List (Edit × List Ann)
deriving DecidableEq, Repr

/-- Embeds `applyAnnotation` (`MarkdownEditor.tsx`): replace
`[ann.from, ann.to)` with the suggestion text, drop that annotation from
the tracked list, remap every surviving annotation through the same
change with the default association (`changeSet.mapPos(pos)`, assoc
`-1`), and dispatch document change plus `setAnnotationsEffect` as one
transaction, pushing a single history entry. -/
def applyAnnotationOp (ann : Ann) (suggestion : List Char) (st : EditorState) :
    EditorState :=
  { doc := applyEdit { f := ann.fromPos, t := ann.toPos, insert := suggestion } st.doc
    anns := (st.anns.filter (fun a => a.id ≠ ann.id)).map
      (fun a =>
        { a with
          fromPos := mapPos { f := ann.fromPos, t := ann.toPos, insert := suggestion }
            a.fromPos (-1)
          toPos := mapPos { f := ann.fromPos, t := ann.toPos, insert := suggestion }
            a.toPos (-1) })
    history :=
      ({ f := ann.fromPos, t := ann.fromPos + suggestion.length,
         insert := (st.doc.drop ann.fromPos).take (ann.toPos - ann.fromPos) },
        st.anns) :: st.history }

/-- A single undo: pop one history entry, apply the recorded inverse
text change, and replay the recorded inverted `setAnnotationsEffect`
(which `rawAnnotationsField` answers by adopting the effect's list). -/
def undo (st : EditorState) : EditorState :=
  match st.history with
  | [] => st
  | (inv, before) :: rest =>
      { doc := applyEdit inv st.doc, anns := before, history := rest }

lemma applyEdit_inverse (e : Edit) (doc : List Char) (h1 : e.f ≤ e.t)
    (h2 : e.t ≤ doc.length) :
    applyEdit { f := e.f, t := e.f + e.insert.length,
                insert := (doc.drop e.f).take (e.t - e.f) } (applyEdit e doc)
      = doc := by
  have htk : (doc.take e.f).length = e.f := take_length_of_le _ _ (by omega)
  have hfl : (doc.take e.f ++ e.insert).length = e.f + e.insert.length := by
    simp [htk]
  have hTake : (doc.take e.f ++ e.insert ++ doc.drop e.t).take e.f = doc.take e.f := by
    rw [List.append_assoc]; exact List.take_left' htk
  have hDrop : (doc.take e.f ++ e.insert ++ doc.drop e.t).drop (e.f + e.insert.length)
      = doc.drop e.t := List.drop_left' hfl
  show (doc.take e.f ++ e.insert ++ doc.drop e.t).take e.f
      ++ (doc.drop e.f).take (e.t - e.f)
      ++ (doc.take e.f ++ e.insert ++ doc.drop e.t).drop (e.f + e.insert.length) = doc
  rw [hTake, hDrop, List.append_assoc]
  rw [show doc.drop e.t = (doc.drop e.f).drop (e.t - e.f) by
    rw [List.drop_drop]; congr 1; omega]
  rw [List.take_append_drop]
  exact List.take_append_drop e.f doc

/-- C3: applying an annotation's suggestion replaces `[from, to)` by the
suggestion, removes exactly that annotation from the tracked set, remaps
all the other annotations through that same change, and pushes a single
history entry; one `undo` restores the editor state exactly, in
particular the original text and the applied annotation's active
presence at its pre-apply position. -/
theorem C3_apply_single_undo (st : EditorState) (ann : Ann) (s : List Char)
    (hmem : ann ∈ st.anns) (hft : ann.fromPos ≤ ann.toPos)
    (htl : ann.toPos ≤ st.doc.length) :
    ((applyAnnotationOp ann s st).doc
        = st.doc.take ann.fromPos ++ s ++ st.doc.drop ann.toPos)
    ∧ (∀ a ∈ (applyAnnotationOp ann s st).anns, a.id ≠ ann.id)
    ∧ (∀ a ∈ st.anns, a.id ≠ ann.id →
        ({ a with
            fromPos := mapPos { f := ann.fromPos, t := ann.toPos, insert := s }
              a.fromPos (-1)
            toPos := mapPos { f := ann.fromPos, t := ann.toPos, insert := s }
              a.toPos (-1) } : Ann) ∈ (applyAnnotationOp ann s st).anns)
    ∧ (applyAnnotationOp ann s st).history
        = (⟨ann.fromPos, ann.fromPos + s.length,
            (st.doc.drop ann.fromPos).take (ann.toPos - ann.fromPos)⟩,
           st.anns) :: st.history
    ∧ undo (applyAnnotationOp ann s st) = st
    ∧ ann ∈ (undo (applyAnnotationOp ann s st)).anns := by
  have hundo : undo (applyAnnotationOp ann s st) = st := by
    show ({ doc := applyEdit _ (applyEdit _ st.doc), anns := st.anns,
            history := st.history } : EditorState) = st
    have hinv := applyEdit_inverse { f := ann.fromPos, t := ann.toPos, insert := s }
      st.doc hft htl
    obtain ⟨d, a0, h0⟩ := st
    simp only at hinv ⊢
    rw [hinv]
  refine ⟨rfl, ?_, ?_, rfl, hundo, ?_⟩
  · intro a ha
    obtain ⟨a0, ha0, rfl⟩ := List.mem_map.mp ha
    have := List.of_mem_filter ha0
    simpa using this
  · intro a ha hne
    exact List.mem_map_of_mem _ (List.mem_filter.mpr ⟨ha, by simpa using hne⟩)
  · rw [hundo]; exact hmem

/-- A second concrete annotation, not overlapping `sampleAnn`. -/
def otherAnn : Ann :=
  { id := ['r'], type := .consistency, fromPos := 0, toPos := 1,
    matchedText := ['a'], message := [], suggestion := none }

/-- A concrete editor state carrying `sampleAnn` and `otherAnn`. -/
def sampleState : EditorState :=
  { doc := 'a' :: 'b' :: 'c' :: 'd' :: 'e' :: 'f' :: []
    anns := [otherAnn, sampleAnn]
    history := [] }

/-- Witness for `C3_apply_single_undo`: apply a two-character suggestion
to `sampleAnn` inside `sampleState` and undo it. -/
theorem C3_witness :
    sampleAnn ∈ sampleState.anns ∧ sampleAnn.fromPos ≤ sampleAnn.toPos ∧
    sampleAnn.toPos ≤ sampleState.doc.length ∧
    (((applyAnnotationOp sampleAnn ['u', 'v'] sampleState).doc
        = sampleState.doc.take sampleAnn.fromPos ++ ['u', 'v']
            ++ sampleState.doc.drop sampleAnn.toPos)
    ∧ (∀ a ∈ (applyAnnotationOp sampleAnn ['u', 'v'] sampleState).anns,
          a.id ≠ sampleAnn.id)
    ∧ (∀ a ∈ sampleState.anns, a.id ≠ sampleAnn.id →
        ({ a with
            fromPos := mapPos ⟨sampleAnn.fromPos, sampleAnn.toPos, ['u', 'v']⟩
              a.fromPos (-1)
            toPos := mapPos ⟨sampleAnn.fromPos, sampleAnn.toPos, ['u', 'v']⟩
              a.toPos (-1) } : Ann)
          ∈ (applyAnnotationOp sampleAnn ['u', 'v'] sampleState).anns)
    ∧ (applyAnnotationOp sampleAnn ['u', 'v'] sampleState).history
        = (⟨sampleAnn.fromPos, sampleAnn.fromPos + (['u', 'v'] : List Char).length,
            (sampleState.doc.drop sampleAnn.fromPos).take
              (sampleAnn.toPos - sampleAnn.fromPos)⟩, sampleState.anns)
            :: sampleState.history
    ∧ undo (applyAnnotationOp sampleAnn ['u', 'v'] sampleState) = sampleState
    ∧ sampleAnn ∈ (undo (applyAnnotationOp sampleAnn ['u', 'v'] sampleState)).anns) :=
  ⟨by decide, by decide, by decide,
    C3_apply_single_undo sampleState sampleAnn ['u', 'v'] (by decide) (by decide) (by decide)⟩

end Hohoff

/-! ## C7: the auto-dismiss debounce timers -/

namespace Hohoff

/-- `EDIT_DISMISS_MS` from `MarkdownEditor.tsx`. -/
def EDIT_DISMISS_MS : Nat := 1200

/-- The pending-dismiss timer map (`dismissTimers`), keyed by annotation
id; the value models the absolute time at which the scheduled callback
fires. -/
abbrev Timers := List (List Char × Nat)

/-- Embeds `cancelPendingDismiss` (`MarkdownEditor.tsx`): clear the
timeout for `id` and remove its entry. -/
def cancelPendingDismiss (ts : Timers) (id : List Char) : Timers :=
  ts.filter (fun p => p.1 ≠ id)

/-- Embeds `schedulePendingDismiss` (`MarkdownEditor.tsx`) called at
absolute time `now`: any existing timer for `id` is cleared and a fresh
one is set to fire `EDIT_DISMISS_MS` after `now`. -/
def schedulePendingDismiss (ts : Timers) (id : List Char) (now : Nat) : Timers :=
  (id, now + EDIT_DISMISS_MS) :: cancelPendingDismiss ts id

/-- The overlap test of the editor's update listener:
`fromA < ann.to && toA > ann.from` on the pre-edit coordinates. -/
def overlapsRange (e : Edit) (a : Ann) : Prop :=
  e.f < a.toPos ∧ e.t > a.fromPos

instance (e : Edit) (a : Ann) : Decidable (overlapsRange e a) := by
  unfold overlapsRange; infer_instance

/-- A document change together with the absolute time at which the user
makes it. -/
structure TimedEdit where
  edit : Edit
  time : Nat

/-- Embeds the auto-dismiss branch of the editor's update listener: for
a changed range, every pre-edit annotation whose `[from, to)` overlaps
it gets its debounce timer (re)scheduled via `schedulePendingDismiss`. -/
def processEditTimers (anns : List Ann) (te : TimedEdit) (ts : Timers) : Timers :=
  anns.foldl
    (fun acc a =>
      if overlapsRange te.edit a then schedulePendingDismiss acc a.id te.time else acc)
    ts

/-- One editor update: the tracked annotations are remapped through the
change and the dismiss timers are rescheduled against the *pre-edit*
annotation ranges (the listener reads `update.startState`). -/
def editStep (st : List Ann × Timers) (te : TimedEdit) : List Ann × Timers :=
  (remapAnns te.edit st.1, processEditTimers st.1 te st.2)

/-- Run a trace of timed edits, oldest first. -/
def runEdits (st : List Ann × Timers) (tes : List TimedEdit) : List Ann × Timers :=
  tes.foldl editStep st

/-- Lookup in the timer map, mirroring `Map.get`: the most recently set
entry for an id wins. -/
def getTimer? : Timers → List Char → Option Nat
  | [], _ => none
  | (k, v) :: rest, id => if k = id then some v else getTimer? rest id

/-- The time of the last edit in the trace whose changed range overlaps
the then-current range of the annotation with the given id, if any. -/
def lastOverlapTime? (anns : List Ann) (id : List Char) :
    List TimedEdit → Option Nat
  | [] => none
  | te :: rest =>
      match lastOverlapTime? (remapAnns te.edit anns) id rest with
      | some t => some t
      | none =>
          if ∃ a ∈ anns, a.id = id ∧ overlapsRange te.edit a
          then some te.time
          else none

lemma getTimer?_cancel_self (ts : Timers) (id : List Char) :
    getTimer? (cancelPendingDismiss ts id) id = none := by
  induction ts with
  | nil => rfl
  | cons p rest ih =>
      obtain ⟨k, v⟩ := p
      by_cases hk : k = id
      · simpa [cancelPendingDismiss, List.filter_cons, hk] using ih
      · simpa [cancelPendingDismiss, List.filter_cons, hk, getTimer?] using ih

lemma getTimer?_cancel_ne (ts : Timers) (id id' : List Char) (h : id' ≠ id) :
    getTimer? (cancelPendingDismiss ts id) id' = getTimer? ts id' := by
  have h2 : ¬ id = id' := fun hc => h hc.symm
  induction ts with
  | nil => rfl
  | cons p rest ih =>
      obtain ⟨k, v⟩ := p
      by_cases hk : k = id
      · subst hk
        simpa [cancelPendingDismiss, List.filter_cons, getTimer?, h2] using ih
      · by_cases hk2 : k = id'
        · subst hk2
          simp [cancelPendingDismiss, List.filter_cons, hk, getTimer?]
        · simpa [cancelPendingDismiss, List.filter_cons, hk, getTimer?, hk2] using ih

lemma getTimer?_schedule_self (ts : Timers) (id : List Char) (now : Nat) :
    getTimer? (schedulePendingDismiss ts id now) id = some (now + EDIT_DISMISS_MS) := by
  simp [schedulePendingDismiss, getTimer?]

lemma getTimer?_schedule_ne (ts : Timers) (id id' : List Char) (now : Nat)
    (h : id' ≠ id) :
    getTimer? (schedulePendingDismiss ts id now) id' = getTimer? ts id' := by
  have h2 : ¬ id = id' := fun hc => h hc.symm
  simp only [schedulePendingDismiss, getTimer?, if_neg h2]
  exact getTimer?_cancel_ne ts id id' h

lemma getTimer?_processEditTimers (anns : List Ann) (te : TimedEdit) (ts : Timers)
    (id : List Char) :
    getTimer? (processEditTimers anns te ts) id
      = if ∃ a ∈ anns, a.id = id ∧ overlapsRange te.edit a
        then some (te.time + EDIT_DISMISS_MS)
        else getTimer? ts id := by
  induction anns generalizing ts with
  | nil => simp [processEditTimers]
  | cons a rest ih =>
      rw [show processEditTimers (a :: rest) te ts
            = processEditTimers rest te
                (if overlapsRange te.edit a then schedulePendingDismiss ts a.id te.time
                 else ts) from rfl,
          ih]
      by_cases hid : a.id = id
      · by_cases hov : overlapsRange te.edit a
        · rw [if_pos (show ∃ x ∈ a :: rest, x.id = id ∧ overlapsRange te.edit x from
            ⟨a, List.mem_cons_self a rest, hid, hov⟩)]
          by_cases hrest : ∃ x ∈ rest, x.id = id ∧ overlapsRange te.edit x
          · rw [if_pos hrest]
          · rw [if_neg hrest, if_pos hov, hid, getTimer?_schedule_self]
        · have hcons : (∃ x ∈ a :: rest, x.id = id ∧ overlapsRange te.edit x)
              ↔ (∃ x ∈ rest, x.id = id ∧ overlapsRange te.edit x) := by
            constructor
            · rintro ⟨x, hx, h1, h2⟩
              rcases List.mem_cons.mp hx with rfl | hx2
              · exact absurd h2 hov
              · exact ⟨x, hx2, h1, h2⟩
            · rintro ⟨x, hx, h1, h2⟩
              exact ⟨x, List.mem_cons_of_mem a hx, h1, h2⟩
          rw [if_neg hov]
          by_cases hrest : ∃ x ∈ rest, x.id = id ∧ overlapsRange te.edit x
          · rw [if_pos hrest, if_pos (hcons.mpr hrest)]
          · rw [if_neg hrest, if_neg (fun hc => hrest (hcons.mp hc))]
      · have hcons : (∃ x ∈ a :: rest, x.id = id ∧ overlapsRange te.edit x)
            ↔ (∃ x ∈ rest, x.id = id ∧ overlapsRange te.edit x) := by
          constructor
          · rintro ⟨x, hx, h1, h2⟩
            rcases List.mem_cons.mp hx with rfl | hx2
            · exact absurd h1 hid
            · exact ⟨x, hx2, h1, h2⟩
          · rintro ⟨x, hx, h1, h2⟩
            exact ⟨x, List.mem_cons_of_mem a hx, h1, h2⟩
        have hne := getTimer?_schedule_ne ts a.id id te.time (fun hc => hid hc.symm)
        by_cases hrest : ∃ x ∈ rest, x.id = id ∧ overlapsRange te.edit x
        · rw [if_pos hrest, if_pos (hcons.mpr hrest)]
        · rw [if_neg hrest, if_neg (fun hc => hrest (hcons.mp hc))]
          by_cases hov : overlapsRange te.edit a
          · rw [if_pos hov, hne]
          · rw [if_neg hov]

lemma getTimer?_runEdits (tes : List TimedEdit) (anns : List Ann) (ts : Timers)
    (id : List Char) :
    getTimer? (runEdits (anns, ts) tes).2 id
      = match lastOverlapTime? anns id tes with
        | some t => some (t + EDIT_DISMISS_MS)
        | none => getTimer? ts id := by
  induction tes generalizing anns ts with
  | nil => simp [runEdits, lastOverlapTime?]
  | cons te rest ih =>
      show getTimer?
          (runEdits (remapAnns te.edit anns, processEditTimers anns te ts) rest).2 id = _
      rw [ih]
      rw [show lastOverlapTime? anns id (te :: rest)
            = (match lastOverlapTime? (remapAnns te.edit anns) id rest with
               | some t => some t
               | none =>
                   if ∃ a ∈ anns, a.id = id ∧ overlapsRange te.edit a
                   then some te.time
                   else none) from rfl]
      cases hrec : lastOverlapTime? (remapAnns te.edit anns) id rest with
      | some t => simp
      | none =>
          rw [getTimer?_processEditTimers]
          by_cases hany : ∃ a ∈ anns, a.id = id ∧ overlapsRange te.edit a
          · simp [hany]
          · simp [hany]

/-- C7: starting with no pending timer, after any trace of timed edits
the pending dismissal for an annotation id is scheduled exactly
`EDIT_DISMISS_MS = 1200` ms after the most recent edit whose changed
range overlapped that annotation's then-current `[from, to)` under the
half-open test `changeStart < to && changeEnd > from` — so each further
overlapping edit restarts the debounce and the dismissal never fires
earlier than 1200 ms after the latest overlapping edit (and no timer
exists if no edit ever overlapped the annotation). -/
theorem C7_debounce_reschedule (anns : List Ann) (tes : List TimedEdit)
    (id : List Char) :
    getTimer? (runEdits (anns, ([] : Timers)) tes).2 id
      = (lastOverlapTime? anns id tes).map (fun t => t + EDIT_DISMISS_MS) := by
  rw [getTimer?_runEdits]
  cases lastOverlapTime? anns id tes <;> simp [getTimer?]

end Hohoff

/-! ## C4: explicit user dismiss -/

namespace Hohoff

/-- The per-file annotation store entry
(`annotationsByFile[activeFilePath].annotations`) together with the
process-local pending-dismiss timer map. -/
structure AppState where
  fileAnns : List Ann
  timers : Timers
deriving DecidableEq

/-- The active set: annotations of the per-file store that are neither
applied nor dismissed (spec §3). -/
def activeSet (st : AppState) : List Ann :=
  st.fileAnns.filter (fun a => !a.applied && !a.dismissed)

/-- Modelled from the spec: the archive-aware store `removeAnnotation`
(spec §4.5 "User dismiss … moves annotation to archive with
`dismissed=true`"; §3 "never hard-deleted except via explicit clear
archive").  What is missing from `src`: the store module under `src`
(`editorStore.ts`) is an older snapshot whose `removeAnnotation`
pre-dates the archive feature, while the current `FeedbackPanel` (in
`MarkdownEditor.tsx`) renders an archive of annotations with
`applied || dismissed` set and calls `clearArchivedAnnotations` /
`removeArchivedAnnotation` of a newer store version that is not under
`src`.  Following the spec, dismissing marks the annotation `dismissed`
in the per-file list, keeping it as an archived record. -/
def removeAnnotationStore (anns : List Ann) (id : List Char) : List Ann :=
  anns.map (fun a => if a.id = id then { a with dismissed := true } else a)

/-- Embeds the `FeedbackPanel` dismiss handler (`MarkdownEditor.tsx`,
`onDismiss`): `cancelPendingDismiss(ann.id)` first, then
`removeAnnotation(ann.id)`, both synchronously in the click handler —
no debounce is involved. -/
def userDismiss (st : AppState) (id : List Char) : AppState :=
  { fileAnns := removeAnnotationStore st.fileAnns id
    timers := cancelPendingDismiss st.timers id }

/-- C4: a user dismiss of an active annotation cancels the pending
auto-dismiss timer for that id (in the same synchronous step, before the
store update), marks the annotation `dismissed = true` while keeping it
in the per-file store as an archived record, and removes it from the
active set. -/
theorem C4_user_dismiss (st : AppState) (id : List Char)
    (hactive : ∃ a ∈ activeSet st, a.id = id) :
    (getTimer? (userDismiss st id).timers id = none)
    ∧ ((userDismiss st id).fileAnns.length = st.fileAnns.length)
    ∧ (∃ a ∈ (userDismiss st id).fileAnns, a.id = id ∧ a.dismissed = true)
    ∧ (∀ a ∈ activeSet (userDismiss st id), a.id ≠ id) := by
  obtain ⟨a0, ha0, hid0⟩ := hactive
  have ha0' : a0 ∈ st.fileAnns := List.mem_of_mem_filter ha0
  refine ⟨getTimer?_cancel_self st.timers id, ?_, ?_, ?_⟩
  · simp [userDismiss, removeAnnotationStore]
  · refine ⟨{ a0 with dismissed := true }, ?_, by simpa using hid0, rfl⟩
    exact List.mem_map.mpr ⟨a0, ha0', by simp [hid0]⟩
  · intro a ha hid
    have ha' : a ∈ (userDismiss st id).fileAnns := List.mem_of_mem_filter ha
    have hkeep := List.of_mem_filter ha
    obtain ⟨a1, ha1, hmap⟩ := List.mem_map.mp ha'
    by_cases h1 : a1.id = id
    · rw [if_pos h1] at hmap
      rw [← hmap] at hkeep
      simp at hkeep
    · rw [if_neg h1] at hmap
      rw [← hmap] at hid
      exact h1 hid

/-- A concrete app state: `sampleAnn` is active and has a pending
auto-dismiss timer. -/
def sampleApp : AppState :=
  { fileAnns := [otherAnn, sampleAnn]
    timers := [(['q'], 900)] }

/-- Witness for `C4_user_dismiss`: dismissing `sampleAnn` (id `q`) in
`sampleApp`. -/
theorem C4_witness :
    (∃ a ∈ activeSet sampleApp, a.id = ['q'])
    ∧ ((getTimer? (userDismiss sampleApp ['q']).timers ['q'] = none)
    ∧ ((userDismiss sampleApp ['q']).fileAnns.length = sampleApp.fileAnns.length)
    ∧ (∃ a ∈ (userDismiss sampleApp ['q']).fileAnns, a.id = ['q'] ∧ a.dismissed = true)
    ∧ (∀ a ∈ activeSet (userDismiss sampleApp ['q']), a.id ≠ ['q'])) :=
  ⟨by decide, C4_user_dismiss sampleApp ['q'] (by decide)⟩

end Hohoff

/-! ## C6: merging the external annotation set into the tracker -/

namespace Hohoff

/-- Embeds `new Map(tracked.map(a => [a.id, a])).get(id)`: the last
tracked annotation with this id, if any (later entries of a JS `Map`
constructor overwrite earlier ones). -/
def findTracked? (tracked : List Ann) (id : List Char) : Option Ann :=
  tracked.foldl (fun acc a => if a.id = id then some a else acc) none

/-- Embeds the annotation-sync effect of `MarkdownEditor` (the
`useEffect` on `annotations`): the store's list decides *which*
annotations exist, while any id already tracked in `rawAnnotationsField`
keeps its tracked (position-accurate) copy:
`annotations.map(a => trackedById.get(a.id) ?? a)`. -/
def mergeTracked (tracked incoming : List Ann) : List Ann :=
  incoming.map (fun a => (findTracked? tracked a.id).getD a)

/-- C6: the merged list is positionally the incoming list, except that
every id already present in the tracked set keeps the tracked copy (the
incoming copy — stale position included — is discarded); only ids absent
from the tracked set adopt the incoming record. -/
theorem C6_merge_keeps_tracked (tracked incoming : List Ann) (i : Nat)
    (hi : i < incoming.length) :
    ((mergeTracked tracked incoming).length = incoming.length)
    ∧ (∀ tr : Ann, findTracked? tracked (incoming.get ⟨i, hi⟩).id = some tr →
        (mergeTracked tracked incoming).get
          ⟨i, by simpa [mergeTracked] using hi⟩ = tr)
    ∧ (findTracked? tracked (incoming.get ⟨i, hi⟩).id = none →
        (mergeTracked tracked incoming).get
          ⟨i, by simpa [mergeTracked] using hi⟩ = incoming.get ⟨i, hi⟩) := by
  refine ⟨by simp [mergeTracked], ?_, ?_⟩
  · intro tr htr
    simp only [List.get_eq_getElem] at htr ⊢
    simp [mergeTracked, htr]
  · intro hnone
    simp only [List.get_eq_getElem] at hnone ⊢
    simp [mergeTracked, hnone]

/-- A stale copy of `sampleAnn`, as an external update would re-supply
it: same id, original (pre-edit) position. -/
def staleAnn : Ann := { sampleAnn with fromPos := 10, toPos := 13 }

/-- Witness for `C6_merge_keeps_tracked`: re-supplying the tracked
`sampleAnn` under its id with a stale position leaves the tracked copy
in place. -/
theorem C6_witness :
    (0 < [staleAnn].length)
    ∧ (((mergeTracked [sampleAnn] [staleAnn]).length = [staleAnn].length)
    ∧ (∀ tr : Ann, findTracked? [sampleAnn] (([staleAnn].get ⟨0, by decide⟩).id) = some tr →
        (mergeTracked [sampleAnn] [staleAnn]).get
          ⟨0, by simpa [mergeTracked] using (by decide : 0 < [staleAnn].length)⟩ = tr)
    ∧ (findTracked? [sampleAnn] (([staleAnn].get ⟨0, by decide⟩).id) = none →
        (mergeTracked [sampleAnn] [staleAnn]).get
          ⟨0, by simpa [mergeTracked] using (by decide : 0 < [staleAnn].length)⟩
          = [staleAnn].get ⟨0, by decide⟩)) :=
  ⟨by decide, C6_merge_keeps_tracked [sampleAnn] [staleAnn] 0 (by decide)⟩

end Hohoff

/-! ## The annotation parser (`utils/annotationParser.ts`) -/

namespace Hohoff

/-- The quote character class of `quotePattern` (and of the suggestion
pattern): the source's character classes `["""'']` / `["""']` contain
only the straight double quote (repeated) and the straight single
quote — no curly quote, despite the comment above the pattern. -/
def isQuoteChar (c : Char) : Bool :=
  c == Char.ofNat 34 || c == Char.ofNat 39

/-- Find the lazy closing quote for a quote opened just before `l`: the
least `m` with `minLen ≤ m ≤ maxLen` such that `l[m]` is a quote
character and every `l[j]`, `j < m`, is not a newline (the regex content
`.` cannot cross a newline).  This is the backtracking behaviour of the
lazy `(.{min,max}?)` followed by the quote class. -/
def closeAt (minLen maxLen : Nat) : List Char → Nat → Option Nat
  | [], _ => none
  | c :: rest, m =>
      if minLen ≤ m ∧ m ≤ maxLen ∧ isQuoteChar c then some m
      else if c = '\n' then none
      else if maxLen ≤ m then none
      else closeAt minLen maxLen rest (m + 1)

/-- The global scan of `quotePattern.exec` over the response, producing
(match index of the opening quote, raw captured content) pairs.  After a
match the scan resumes just past its closing quote (`lastIndex`); after
a position with no match it advances one character.  The fuel is the
length of the remaining text (each step consumes at least one
character). -/
def scanGo : Nat → List Char → Nat → List (Nat × List Char)
  | 0, _, _ => []
  | _ + 1, [], _ => []
  | fuel + 1, c :: rest, i =>
      if isQuoteChar c then
        match closeAt 10 300 rest 0 with
        | some m => (i, rest.take m) :: scanGo fuel (rest.drop (m + 1)) (i + m + 2)
        | none => scanGo fuel rest (i + 1)
      else scanGo fuel rest (i + 1)

/-- All matches of `quotePattern` over the response. -/
def scanQuotes (l : List Char) : List (Nat × List Char) := scanGo l.length l 0

/-- JS `String.prototype.trim`. -/
def trimChars (l : List Char) : List Char :=
  (((l.dropWhile Char.isWhitespace).reverse).dropWhile Char.isWhitespace).reverse

/-- State-machine pass for `replace(/\s+/g, ' ')`: every maximal
whitespace run becomes a single space. -/
def collapseWsGo : Bool → List Char → List Char
  | _, [] => []
  | prevWs, c :: rest =>
      if c.isWhitespace then
        (if prevWs then collapseWsGo true rest else ' ' :: collapseWsGo true rest)
      else c :: collapseWsGo false rest

/-- JS `replace(/\s+/g, ' ')`. -/
def collapseWs (l : List Char) : List Char := collapseWsGo false l

/-- JS `hay.indexOf(needle)` at an accumulated offset. -/
def indexOfFrom : List Char → List Char → Nat → Option Nat
  | hay, needle, i =>
      if needle.isPrefixOf hay then some i
      else
        match hay with
        | [] => none
        | _ :: rest => indexOfFrom rest needle (i + 1)

/-- JS `hay.indexOf(needle)` (`-1` becomes `none`). -/
def indexOf? (hay needle : List Char) : Option Nat := indexOfFrom hay needle 0

/-- Embeds the loop of `findNormalized`: locate `words[0]` from
`searchFrom` on, compare the whitespace-collapsed document slice of
length `2 × |normalized|` against `normalized` by prefix, else compare
the collapsed slice of length `|anchor| + 20` against the 4-word
`anchor`; on failure restart one character later.  Fuel decreases by one
per iteration; `document.length + 1` iterations suffice because
`searchFrom` strictly increases. -/
def findNormalizedGo (document normalized anchor w0 : List Char) :
    Nat → Nat → Option Nat
  | 0, _ => none
  | fuel + 1, searchFrom =>
      if searchFrom < document.length then
        match (indexOf? (document.drop searchFrom) w0).map (· + searchFrom) with
        | none => none
        | some idx =>
            if normalized.isPrefixOf
                (collapseWs ((document.drop idx).take (normalized.length * 2)))
            then some idx
            else if anchor.isPrefixOf
                (collapseWs ((document.drop idx).take (anchor.length + 20)))
            then some idx
            else findNormalizedGo document normalized anchor w0 fuel (idx + 1)
      else none

/-- Embeds `findNormalized` (`annotationParser.ts`): whole-quote or
4-word-anchor prefix match over whitespace-collapsed document slices;
requires at least 3 words. -/
def findNormalized (document normalized : List Char) : Option Nat :=
  let words := normalized.splitOn ' '
  if words.length < 3 then none
  else
    findNormalizedGo document normalized
      (List.intercalate [' '] (words.take 4)) (words.headD [])
      (document.length + 1) 0

/-- Pass 1 (exact `indexOf`) with the pass-2 normalized fallback, as in
the body of `parseAnnotationsFromAIResponse`. -/
def locateQuote (documentContent quotedText : List Char) : Option Nat :=
  match indexOf? documentContent quotedText with
  | some k => some k
  | none => findNormalized documentContent (collapseWs quotedText)

/-- Case-insensitive prefix test (for the `/i` regex flags). -/
def ciPrefix : List Char → List Char → Bool
  | [], _ => true
  | _ :: _, [] => false
  | p :: ps, c :: cs => p.toLower == c.toLower && ciPrefix ps cs

/-- One attempt of the suggestion pattern
`/SUGGESTION:\s*["""'](.{5,400}?)["""']/i` at the head of `l`. -/
def matchSuggestionAt (l : List Char) : Option (List Char) :=
  if ciPrefix ('s' :: 'u' :: 'g' :: 'g' :: 'e' :: 's' :: 't' :: 'i' :: 'o' :: 'n' :: ':' :: []) l
  then
    match (l.drop 11).dropWhile Char.isWhitespace with
    | [] => none
    | c :: content =>
        if isQuoteChar c then
          match closeAt 5 400 content 0 with
          | some m => some (content.take m)
          | none => none
        else none
  else none

/-- Embeds `extractSuggestion`: the first position where the suggestion
pattern matches; the captured text is trimmed. -/
def extractSuggestion : List Char → Option (List Char)
  | [] => none
  | c :: rest =>
      match matchSuggestionAt (c :: rest) with
      | some content => some (trimChars content)
      | none => extractSuggestion rest

end Hohoff

/-! ## Message extraction, classification, ids -/

namespace Hohoff

/-- First character is whitespace. -/
def headIsWs : List Char → Bool
  | [] => false
  | c :: _ => c.isWhitespace

/-- First character is a newline. -/
def headIsNl : List Char → Bool
  | [] => false
  | c :: _ => c == '\n'

/-- One attempt of one label alternative of
`/(?:ISSUE|PROBLEM|WHY):\s*(.+?)(?:\n|$)/i` at the head of `l`: on
success, the length of the full match (label, colon, whitespace,
content, and the closing newline when present) and the captured content
(the non-empty run of non-newline characters after the greedily consumed
whitespace). -/
def tryLabel (lab l : List Char) : Option (Nat × List Char) :=
  if ciPrefix (lab ++ [':']) l then
    let afterLabel := l.drop (lab.length + 1)
    let ws := afterLabel.takeWhile Char.isWhitespace
    let content := (afterLabel.drop ws.length).takeWhile (fun c => c ≠ '\n')
    if content.isEmpty then none
    else
      let rest := (afterLabel.drop ws.length).drop content.length
      some (lab.length + 1 + ws.length + content.length + (if headIsNl rest then 1 else 0),
        content)
  else none

/-- The label alternation, in the regex's order. -/
def matchIssueAt (l : List Char) : Option (Nat × List Char) :=
  (tryLabel ('i' :: 's' :: 's' :: 'u' :: 'e' :: []) l).orElse fun _ =>
    (tryLabel ('p' :: 'r' :: 'o' :: 'b' :: 'l' :: 'e' :: 'm' :: []) l).orElse fun _ =>
      tryLabel ('w' :: 'h' :: 'y' :: []) l

/-- The global (`g`) scan for labelled issue lines, resuming after each
match; yields the captured contents in order. -/
def issueScanGo : Nat → List Char → List (List Char) → List (List Char)
  | 0, _, acc => acc.reverse
  | _ + 1, [], acc => acc.reverse
  | fuel + 1, c :: rest, acc =>
      match matchIssueAt (c :: rest) with
      | some (len, content) => issueScanGo fuel ((c :: rest).drop len) (content :: acc)
      | none => issueScanGo fuel rest acc

/-- All captures of the issue-label pattern over `l`. -/
def issueMatches (l : List Char) : List (List Char) := issueScanGo l.length l []

/-- Punctuation of the sentence-split separator `[.!?]\s+`. -/
def isSentPunct (c : Char) : Bool := c == '.' || c == '!' || c == '?'

/-- Single pass of `split(/[.!?]\s+/)`: the Bool is true while the
whitespace run of a separator is being consumed. -/
def splitSentGo : Bool → List Char → List Char → List (List Char)
  | _, cur, [] => [cur.reverse]
  | false, cur, c :: rest =>
      if isSentPunct c && headIsWs rest then cur.reverse :: splitSentGo true [] rest
      else splitSentGo false (c :: cur) rest
  | true, cur, c :: rest =>
      if c.isWhitespace then splitSentGo true cur rest
      else if isSentPunct c && headIsWs rest then cur.reverse :: splitSentGo true [] rest
      else splitSentGo false (c :: cur) rest

/-- JS `before.split(/[.!?]\s+/)`. -/
def splitSentences (l : List Char) : List (List Char) := splitSentGo false [] l

/-- Truncation to 200 characters with an ellipsis marker. -/
def truncateMsg (t : List Char) : List Char :=
  if 200 < t.length then t.take 200 ++ ['…'] else t

/-- Embeds `extractMessage`: look back up to 400 characters before the
quote; prefer the last `ISSUE:`/`PROBLEM:`/`WHY:` line (label stripped,
trimmed), else fall back to the last sentence before the quote; truncate
to 200 characters. -/
def extractMessage (response : List Char) (quoteIndex : Nat) : List Char :=
  let before := (response.take quoteIndex).drop (quoteIndex - 400)
  match (issueMatches before).getLast? with
  | some content => truncateMsg (trimChars content)
  | none => truncateMsg (trimChars ((splitSentences before).getLastD []))

/-- Substring containment, for `String.prototype.includes`. -/
def containsSub (hay sub : List Char) : Bool := (indexOf? hay sub).isSome

/-- Lowercasing, for `toLowerCase()` on the context slice. -/
def toLowerList (l : List Char) : List Char := l.map Char.toLower

/-- Embeds `classifyType` (`annotationParser.ts`); `contextBefore` is
already lowercased by the caller. -/
def classifyType (contextBefore : List Char) : AnnType :=
  if containsSub contextBefore ('p' :: 'a' :: 's' :: 's' :: 'i' :: 'v' :: 'e' :: [])
  then .passive_voice
  else if containsSub contextBefore
      ('c' :: 'o' :: 'n' :: 's' :: 'i' :: 's' :: 't' :: 'e' :: 'n' :: 'c' :: 'y' :: [])
    || containsSub contextBefore
      ('c' :: 'h' :: 'a' :: 'r' :: 'a' :: 'c' :: 't' :: 'e' :: 'r' :: [])
    || containsSub contextBefore
      ('t' :: 'i' :: 'm' :: 'e' :: 'l' :: 'i' :: 'n' :: 'e' :: [])
    || containsSub contextBefore
      ('r' :: 'e' :: 'p' :: 'e' :: 'a' :: 't' :: 'e' :: 'd' :: [])
    || containsSub contextBefore
      ('c' :: 'o' :: 'n' :: 't' :: 'r' :: 'a' :: 'd' :: 'i' :: 'c' :: 't' :: 'i' :: 'o' :: 'n' :: [])
  then .consistency
  else .style

/-- A decimal digit character. -/
def digitChar (d : Nat) : Char := Char.ofNat (48 + d)

/-- Decimal rendering of a natural number (JS number-to-string for the
`ai-${id++}` template), with explicit fuel. -/
def natToDecAux : Nat → Nat → List Char
  | 0, n => [digitChar (n % 10)]
  | fuel + 1, n => if n < 10 then [digitChar n] else natToDecAux fuel (n / 10) ++ [digitChar (n % 10)]

/-- Decimal rendering of a natural number. -/
def natToDec (n : Nat) : List Char := natToDecAux n n

/-- The id of the `counter`-th annotation of one parser run:
`ai-${counter}`. -/
def mkAiId (n : Nat) : List Char := 'a' :: 'i' :: '-' :: natToDec n

/-- The numeric value of a digit character. -/
def decVal (c : Char) : Nat := c.toNat - 48

/-- Reads back a decimal rendering. -/
def decodeDec (l : List Char) : Nat := l.foldl (fun acc c => 10 * acc + decVal c) 0

lemma decVal_digitChar (d : Nat) (h : d < 10) : decVal (digitChar d) = d := by
  interval_cases d <;> decide

lemma decodeDec_append_digit (l : List Char) (c : Char) :
    decodeDec (l ++ [c]) = 10 * decodeDec l + decVal c := by
  simp [decodeDec, List.foldl_append]

lemma decodeDec_natToDecAux (fuel n : Nat) (h : n ≤ fuel ∨ n < 10) :
    decodeDec (natToDecAux fuel n) = n := by
  induction fuel generalizing n with
  | zero =>
      have hn : n < 10 := by omega
      show decodeDec [digitChar (n % 10)] = n
      rw [show n % 10 = n from Nat.mod_eq_of_lt hn]
      simp [decodeDec, decVal_digitChar n hn]
  | succ fuel ih =>
      by_cases hn : n < 10
      · show decodeDec (if n < 10 then [digitChar n] else _) = n
        rw [if_pos hn]
        simp [decodeDec, decVal_digitChar n hn]
      · show decodeDec (if n < 10 then _ else natToDecAux fuel (n / 10) ++ [digitChar (n % 10)]) = n
        rw [if_neg hn, decodeDec_append_digit,
          ih (n / 10) (Or.inl (by omega)),
          decVal_digitChar _ (Nat.mod_lt n (by omega))]
        omega

lemma natToDec_inj (a b : Nat) (h : natToDec a = natToDec b) : a = b := by
  have ha := decodeDec_natToDecAux a a (Or.inl le_rfl)
  have hb := decodeDec_natToDecAux b b (Or.inl le_rfl)
  rw [← ha, ← hb]
  unfold natToDec at h
  rw [h]

lemma mkAiId_inj (a b : Nat) (h : mkAiId a = mkAiId b) : a = b := by
  unfold mkAiId at h
  exact natToDec_inj a b (by injection h with _ h; injection h with _ h; injection h)

end Hohoff

/-! ## The parser main loop -/

namespace Hohoff

/-- `type.replace('_', ' ')` of the fallback message. -/
def typeName : AnnType → List Char
  | .passive_voice =>
      'p' :: 'a' :: 's' :: 's' :: 'i' :: 'v' :: 'e' :: ' ' :: 'v' :: 'o' :: 'i' :: 'c' :: 'e' :: []
  | .consistency =>
      'c' :: 'o' :: 'n' :: 's' :: 'i' :: 's' :: 't' :: 'e' :: 'n' :: 'c' :: 'y' :: []
  | .style => 's' :: 't' :: 'y' :: 'l' :: 'e' :: []
  | .critique => 'c' :: 'r' :: 'i' :: 't' :: 'i' :: 'q' :: 'u' :: 'e' :: []
  | .custom => 'c' :: 'u' :: 's' :: 't' :: 'o' :: 'm' :: []

/-- The fallback message `` `${type.replace('_', ' ')} — hover for details` ``
used when `extractMessage` returns the empty string. -/
def defaultMessage (t : AnnType) : List Char :=
  typeName t ++
    (' ' :: '—' :: ' ' :: 'h' :: 'o' :: 'v' :: 'e' :: 'r' :: ' ' :: 'f' :: 'o' :: 'r'
      :: ' ' :: 'd' :: 'e' :: 't' :: 'a' :: 'i' :: 'l' :: 's' :: [])

/-- The annotation pushed for a located quote: match index `i`, raw
captured `content`, trimmed `quotedText`, resolved offset `k`, running
counter `counter`. -/
def mkParsedAnn (aiResponse : List Char) (ov : Option AnnType)
    (i : Nat) (content quotedText : List Char) (k counter : Nat) : Ann :=
  let ty := ov.getD (classifyType (toLowerList ((aiResponse.take i).drop (i - 200))))
  let msg := extractMessage aiResponse i
  { id := mkAiId counter
    type := ty
    fromPos := k
    toPos := k + quotedText.length
    matchedText := quotedText
    message := if msg.isEmpty then defaultMessage ty else msg
    suggestion := extractSuggestion ((aiResponse.drop (i + content.length + 2)).take 400) }

/-- The body of the `while` loop of `parseAnnotationsFromAIResponse`
over the quote matches: locate (exact, then normalized fallback), drop
unlocatable quotes silently, skip ranges annotated twice, classify from
the 200-character lowercased context before the quote (unless an
override type is supplied), extract suggestion (400 characters after the
match) and message, and push the annotation with id `ai-${counter}`. -/
def parseLoop (aiResponse documentContent : List Char) (ov : Option AnnType) :
    List (Nat × List Char) → List Ann → Nat → List Ann
  | [], acc, _ => acc
  | (i, content) :: rest, acc, counter =>
      let quotedText := trimChars content
      match locateQuote documentContent quotedText with
      | none => parseLoop aiResponse documentContent ov rest acc counter
      | some k =>
          if acc.any (fun a => decide (a.fromPos = k ∧ a.toPos = k + quotedText.length))
          then parseLoop aiResponse documentContent ov rest acc counter
          else
            parseLoop aiResponse documentContent ov rest
              (acc ++ [mkParsedAnn aiResponse ov i content quotedText k counter])
              (counter + 1)

/-- Embeds `parseAnnotationsFromAIResponse` (`annotationParser.ts`). -/
def parseAnnotationsFromAIResponse (aiResponse documentContent : List Char)
    (overrideType : Option AnnType) : List Ann :=
  parseLoop aiResponse documentContent overrideType (scanQuotes aiResponse) [] 0

/-- Embeds the merge step of `runAIAnalysis` (`AnalysisToolbar`): the
previous live set minus the annotations of the re-run mode, followed by
the new run's annotations. -/
def runAIAnalysisMerge (existing : List Ann) (mode : AnnType) (newAnns : List Ann) :
    List Ann :=
  existing.filter (fun a => a.type ≠ mode) ++ newAnns

end Hohoff

/-! ## C8, C9, C10 -/

namespace Hohoff

/-- An AI response quoting a passage in curly double quotes. -/
def curlyResp : List Char :=
  "Look at the passage “She was seen by him walking down” closely".toList

/-- A document containing the curly-quoted passage verbatim. -/
def curlyDoc : List Char := "She was seen by him walking down the path".toList

/-- C8: the quote pattern's character class contains only the straight
double and single quote, although the comment directly above it says the
pattern "handles straight, curly, and single quotes".  On a response
whose only quoted run (32 characters, well inside 10–300, no newline)
uses curly double quotes, no quote is extracted and no annotation is
created, even though the quoted text occurs verbatim in the document
(pass 1 would have located it at offset 0). -/
theorem C8_curly_quotes_unmatched :
    curlyResp
      = "Look at the passage ".toList ++ ['“']
        ++ "She was seen by him walking down".toList ++ ['”'] ++ " closely".toList
    ∧ 10 ≤ ("She was seen by him walking down".toList).length
    ∧ ("She was seen by him walking down".toList).length ≤ 300
    ∧ ("She was seen by him walking down".toList).all (fun c => c ≠ '\n')
    ∧ indexOf? curlyDoc ("She was seen by him walking down".toList) = some 0
    ∧ scanQuotes curlyResp = []
    ∧ parseAnnotationsFromAIResponse curlyResp curlyDoc none = [] := by
  decide

/-- The document of the two-run id-collision scenario. -/
def doc1 : List Char := "The castle gate stood open wide all night long".toList

/-- A first analysis response (its context classifies as consistency). -/
def resp1 : List Char :=
  "There is a consistency slip in \"castle gate stood open wide\" here".toList

/-- A second analysis response (its context classifies as style). -/
def resp2 : List Char :=
  "Maybe rephrase \"open wide all night long\" a bit".toList

/-- C9: the claim of globally unique ids in the live set is false: the
parser restarts its counter at `ai-0` on every run, and `runAIAnalysis`
merges the surviving previous annotations with the new run's output, so
after a consistency run followed by a style run the live set holds two
distinct annotations (different types and ranges) that both carry id
`ai-0`. -/
theorem C9_counterexample :
    ((runAIAnalysisMerge (parseAnnotationsFromAIResponse resp1 doc1 none) .style
        (parseAnnotationsFromAIResponse resp2 doc1 none)).map (fun a => a.id))
      = [('a' :: 'i' :: '-' :: '0' :: []), ('a' :: 'i' :: '-' :: '0' :: [])]
    ∧ ((runAIAnalysisMerge (parseAnnotationsFromAIResponse resp1 doc1 none) .style
        (parseAnnotationsFromAIResponse resp2 doc1 none)).map (fun a => a.type))
      = [AnnType.consistency, AnnType.style] := by
  decide

lemma parseLoop_pairwise (resp doc : List Char) (ov : Option AnnType)
    (ms : List (Nat × List Char)) (acc : List Ann) (counter : Nat)
    (hacc : ∀ a ∈ acc, ∃ j, j < counter ∧ a.id = mkAiId j)
    (hdist : acc.Pairwise (fun a b => a.id ≠ b.id)) :
    (parseLoop resp doc ov ms acc counter).Pairwise (fun a b => a.id ≠ b.id) := by
  induction ms generalizing acc counter with
  | nil => simpa [parseLoop] using hdist
  | cons m rest ih =>
      obtain ⟨i, content⟩ := m
      show (match locateQuote doc (trimChars content) with
        | none => parseLoop resp doc ov rest acc counter
        | some k =>
            if acc.any (fun a =>
              decide (a.fromPos = k ∧ a.toPos = k + (trimChars content).length))
            then parseLoop resp doc ov rest acc counter
            else parseLoop resp doc ov rest
              (acc ++ [mkParsedAnn resp ov i content (trimChars content) k counter])
              (counter + 1)).Pairwise (fun a b : Ann => a.id ≠ b.id)
      cases locateQuote doc (trimChars content) with
      | none => exact ih acc counter hacc hdist
      | some k =>
          dsimp only
          by_cases hdup : acc.any (fun a =>
              decide (a.fromPos = k ∧ a.toPos = k + (trimChars content).length))
          · rw [if_pos hdup]
            exact ih acc counter hacc hdist
          · rw [if_neg hdup]
            refine ih _ (counter + 1) ?_ ?_
            · intro a ha
              rcases List.mem_append.mp ha with h | h
              · obtain ⟨j, hj, hid⟩ := hacc a h
                exact ⟨j, by omega, hid⟩
              · rw [List.mem_singleton] at h
                subst h
                exact ⟨counter, by omega, rfl⟩
            · rw [List.pairwise_append]
              refine ⟨hdist, List.pairwise_singleton _ _, ?_⟩
              intro a ha b hb
              rw [List.mem_singleton] at hb
              subst hb
              obtain ⟨j, hj, hid⟩ := hacc a ha
              rw [hid]
              intro hc
              have := mkAiId_inj j counter hc
              omega

/-- C9 (amended): ids are unique within one parser run (`ai-0`, `ai-1`, …
with a counter that starts at 0), and position tracking never rewrites
an id; but ids are not unique across analysis runs merged into the live
set, since each run restarts the counter (see the counterexample). -/
theorem C9_within_run_unique_ids :
    (∀ (resp doc : List Char) (ov : Option AnnType),
      (parseAnnotationsFromAIResponse resp doc ov).Pairwise (fun a b => a.id ≠ b.id))
    ∧ (∀ (e : Edit) (anns : List Ann),
        (remapAnns e anns).map (fun a => a.id) = anns.map (fun a => a.id)) := by
  constructor
  · intro resp doc ov
    exact parseLoop_pairwise resp doc ov _ [] 0 (by simp) List.Pairwise.nil
  · intro e anns
    simp [remapAnns]

lemma parseLoop_width (resp doc : List Char) (ov : Option AnnType)
    (ms : List (Nat × List Char)) (acc : List Ann) (counter : Nat)
    (hacc : ∀ a ∈ acc, a.toPos = a.fromPos + a.matchedText.length) :
    ∀ a ∈ parseLoop resp doc ov ms acc counter,
      a.toPos = a.fromPos + a.matchedText.length := by
  induction ms generalizing acc counter with
  | nil => simpa [parseLoop] using hacc
  | cons m rest ih =>
      obtain ⟨i, content⟩ := m
      show ∀ a ∈ (match locateQuote doc (trimChars content) with
        | none => parseLoop resp doc ov rest acc counter
        | some k =>
            if acc.any (fun a =>
              decide (a.fromPos = k ∧ a.toPos = k + (trimChars content).length))
            then parseLoop resp doc ov rest acc counter
            else parseLoop resp doc ov rest
              (acc ++ [mkParsedAnn resp ov i content (trimChars content) k counter])
              (counter + 1)), a.toPos = a.fromPos + a.matchedText.length
      cases locateQuote doc (trimChars content) with
      | none => exact ih acc counter hacc
      | some k =>
          dsimp only
          by_cases hdup : acc.any (fun a =>
              decide (a.fromPos = k ∧ a.toPos = k + (trimChars content).length))
          · rw [if_pos hdup]
            exact ih acc counter hacc
          · rw [if_neg hdup]
            refine ih _ (counter + 1) ?_
            intro a ha
            rcases List.mem_append.mp ha with h | h
            · exact hacc a h
            · rw [List.mem_singleton] at h
              subst h
              rfl

/-- The document of the whitespace-mismatch scenario: a double space
after `cat`. -/
def docW : List Char := "The cat  sat on the mat today".toList

/-- The AI response quoting the passage with a single space. -/
def respW : List Char := "Fix \"The cat sat on the mat today\" please".toList

/-- The quoted text of `respW`. -/
def qW : List Char := "The cat sat on the mat today".toList

/-- C10: every annotation the parser creates spans exactly
`[docIndex, docIndex + quotedText.length)` — the length of the raw
quoted text, also when `docIndex` came from the whitespace-normalized
pass 2 — and on a document whose whitespace run lengths differ from the
quote's, the annotated range therefore does not cover the matched
passage: the 29-character passage gets a 28-character range that cuts
off its last character. -/
theorem C10_pass2_raw_length :
    (∀ (resp doc : List Char) (ov : Option AnnType),
      ∀ a ∈ parseAnnotationsFromAIResponse resp doc ov,
        a.toPos = a.fromPos + a.matchedText.length)
    ∧ (∀ (doc q : List Char) (idx : Nat), indexOf? doc q = none →
        findNormalized doc (collapseWs q) = some idx →
        locateQuote doc q = some idx)
    ∧ ((parseAnnotationsFromAIResponse respW docW none).map
        (fun a => (a.fromPos, a.toPos)) = [(0, 28)])
    ∧ indexOf? docW qW = none
    ∧ findNormalized docW (collapseWs qW) = some 0
    ∧ docW.length = 29
    ∧ docW.take 28 = "The cat  sat on the mat toda".toList := by
  refine ⟨?_, ?_, by decide, by decide, by decide, by decide, by decide⟩
  · intro resp doc ov
    exact parseLoop_width resp doc ov _ [] 0 (by simp)
  · intro doc q idx h1 h2
    simp [locateQuote, h1, h2]

/-- The first annotation of the pass-2 scenario. -/
def annW : Ann := (parseAnnotationsFromAIResponse respW docW none).headD otherAnn

/-- Witness for `C10_pass2_raw_length`: its universally quantified
conjuncts instantiated at the concrete pass-2 scenario. -/
theorem C10_witness :
    (annW ∈ parseAnnotationsFromAIResponse respW docW none
      ∧ annW.toPos = annW.fromPos + annW.matchedText.length)
    ∧ (indexOf? docW qW = none ∧ findNormalized docW (collapseWs qW) = some 0
      ∧ locateQuote docW qW = some 0) :=
  ⟨⟨by decide, C10_pass2_raw_length.1 respW docW none annW (by decide)⟩,
   ⟨by decide, by decide, C10_pass2_raw_length.2.1 docW qW 0 (by decide) (by decide)⟩⟩

end Hohoff
